import Mathlib

/-!
# prmonitor: stale pull request detection

A shallow embedding of `prnotify.go`.  The program reads a semicolon separated
watch list, asks GitHub for the open pull requests of every watched repository,
keeps the URLs of the pull requests created before a cutoff, and shows one
desktop notification.

Conventions of the embedding:

* a Go `string` is a Lean `String`; the two separators used by the program are
  ASCII characters, for which splitting bytes and splitting characters agree;
* an instant (`time.Time`) is an `Int` number of nanoseconds since a fixed epoch
  and a `time.Duration` is an `Int` number of nanoseconds;
* a pointer field of the GitHub record is an `Option`;
* a run-time panic or `log.Fatal` is an `Except.error`;
* the wall clock and the GitHub service are parameters: the `n`-th call of
  `time.Now()` returns `now n`, and the `n`-th call of `PullRequests.List`
  returns `client n owner name`;
* a Go slice is a list, and the `nil` slice is the empty list.
-/

namespace PrMonitor

/-! ## Data model -/

/-- Instants, in nanoseconds since a fixed epoch. -/
abbrev Time := Int

/-- Go `time.Duration`: a number of nanoseconds. -/
abbrev Duration := Int

/-- Ways in which the program stops abnormally. -/
inductive Failure where
  /-- The process exits through `log.Fatal`. -/
  | fatal
  /-- Run-time panic: index out of range. -/
  | indexOutOfRange
  /-- Run-time panic: nil pointer dereference. -/
  | nilDereference
  deriving DecidableEq

/-- The fields of `github.PullRequest` read by the program; both are pointers. -/
structure PullRequest where
  CreatedAt : Option Time
  HTMLURL : Option String
  deriving DecidableEq

/-- Error level log records written by the program. -/
inductive LogRecord where
  /-- The record "Invalid repo name supplied", with the offending entry. -/
  | invalidRepo (repo : String)
  /-- The record "Couldn't get pull requests", with the error of the query. -/
  | fetchFailed (err : String)
  deriving DecidableEq

/-- The effects of a run observed so far. -/
structure State where
  /-- Number of calls of `time.Now()` made. -/
  ticks : Nat
  /-- Arguments of the calls of `PullRequests.List`, oldest first. -/
  queried : List (String × String)
  /-- Error level log records, oldest first. -/
  errorLog : List LogRecord
  deriving DecidableEq

/-- The state in which `main` starts. -/
def State.init : State := { ticks := 0, queried := [], errorLog := [] }

/-- The wall clock: the reading returned by the `n`-th call of `time.Now()`. -/
abbrev Clock := Nat → Time

/-- The GitHub service: the outcome of the `n`-th call of `PullRequests.List`
for the given owner and repository name, a list of open pull requests or an
error. -/
abbrev GithubClient := Nat → String → String → Except String (List PullRequest)

/-- The two settings read through viper. -/
structure Config where
  reposToWatch : String
  githubAPIToken : String
  deriving DecidableEq

/-- The fields of the notification set by `main`. -/
structure Toast where
  Message : String
  Title : String
  Subtitle : String
  Link : String
  deriving DecidableEq

/-! ## Constants -/

/-- Go `time.Nanosecond`. -/
def Nanosecond : Duration := 1
/-- Go `time.Microsecond`. -/
def Microsecond : Duration := 1000 * Nanosecond
/-- Go `time.Millisecond`. -/
def Millisecond : Duration := 1000 * Microsecond
/-- Go `time.Second`. -/
def Second : Duration := 1000 * Millisecond
/-- Go `time.Minute`. -/
def Minute : Duration := 60 * Second
/-- Go `time.Hour`. -/
def Hour : Duration := 60 * Minute

/-- The constant `stalePullRequestTimeLimitDays = time.Hour * 2 * 24`. -/
def stalePullRequestTimeLimitDays : Duration := Hour * 2 * 24

/-! ## Library functions -/

/-- The pieces of a character sequence between occurrences of `sep`; `cur` holds
the characters of the piece being read. -/
def splitAux (sep : Char) : List Char → List Char → List (List Char)
  | [], cur => [cur]
  | c :: cs, cur =>
    if c = sep then cur :: splitAux sep cs [] else splitAux sep cs (cur ++ [c])

/-- Go `strings.Split(s, sep)` for a separator of one character: the substrings
of `s` between the occurrences of `sep`, in order.  The result has one more
element than `s` has separators, so it is never empty. -/
def Split (s : String) (sep : Char) : List String :=
  (splitAux sep s.toList []).map String.mk

/-- Go `t.Add(d)`. -/
def Time.Add (t : Time) (d : Duration) : Time := t + d

/-- Go `t.Before(u)`: `t` is strictly earlier than `u`. -/
def Time.Before (t u : Time) : Bool := decide (t < u)

/-! ## The program -/

/-- The function `getReposToWatch`: the watch list split on `;`, or a fatal exit
when the setting is empty. -/
def getReposToWatch (cfg : Config) : Except Failure (List String) :=
  if cfg.reposToWatch = "" then .error .fatal
  else .ok (Split cfg.reposToWatch ';')

/-- The function `getGithubAPIToken`: the token, or a fatal exit when it is
empty. -/
def getGithubAPIToken (cfg : Config) : Except Failure String :=
  if cfg.githubAPIToken = "" then .error .fatal
  else .ok cfg.githubAPIToken

/-- The cutoff `time.Now().Add(-1 * limit)` computed from a clock reading. -/
def tooManyDaysAgo (limit : Duration) (reading : Time) : Time :=
  Time.Add reading (-1 * limit)

/-- The loop of `getOldPullRequestsForRepo` over the pull requests returned by
the query, with the time limit as a parameter.  `k` counts the clock readings
taken so far and `oldPullRequestURLs` is the slice being appended to.  Each
iteration reads the clock, dereferences `pr.CreatedAt`, and dereferences
`pr.HTMLURL` when the pull request was created before the cutoff. -/
def oldPullRequestsLoop (limit : Duration) (now : Clock) :
    List PullRequest → Nat → List String → Except Failure (List String × Nat)
  | [], k, oldPullRequestURLs => .ok (oldPullRequestURLs, k)
  | pr :: rest, k, oldPullRequestURLs =>
    let cutoff := tooManyDaysAgo limit (now k)
    match pr.CreatedAt with
    | none => .error .nilDereference
    | some createdAt =>
      if Time.Before createdAt cutoff then
        match pr.HTMLURL with
        | none => .error .nilDereference
        | some url =>
          oldPullRequestsLoop limit now rest (k + 1) (oldPullRequestURLs ++ [url])
      else
        oldPullRequestsLoop limit now rest (k + 1) oldPullRequestURLs

/-- The function `getOldPullRequestsForRepo`: one query; on an error the error
is logged and `nil` is returned, otherwise the loop runs from an empty slice
with the limit `stalePullRequestTimeLimitDays`. -/
def getOldPullRequestsForRepo (client : GithubClient) (now : Clock)
    (repoOwner repoName : String) (s : State) :
    Except Failure (List String × State) :=
  let s1 : State := { s with queried := s.queried ++ [(repoOwner, repoName)] }
  match client s.queried.length repoOwner repoName with
  | .error err =>
    .ok ([], { s1 with errorLog := s1.errorLog ++ [.fetchFailed err] })
  | .ok pullRequests =>
    match oldPullRequestsLoop stalePullRequestTimeLimitDays now pullRequests s1.ticks [] with
    | .error f => .error f
    | .ok (urls, k) => .ok (urls, { s1 with ticks := k })

/-- The loop of `main` over the entries of the watch list.  The entry is split
on `/`, elements 0 and 1 of the split are read, and only then the shape of the
entry is checked. -/
def watchLoop (client : GithubClient) (now : Clock) :
    List String → State → List String → Except Failure (List String × State)
  | [], s, allOldPullRequestURLs => .ok (allOldPullRequestURLs, s)
  | repo :: rest, s, allOldPullRequestURLs =>
    let repoPieces := Split repo '/'
    match repoPieces[0]? with
    | none => .error .indexOutOfRange
    | some repoOwner =>
      match repoPieces[1]? with
      | none => .error .indexOutOfRange
      | some repoName =>
        if repoPieces.length ≠ 2 ∨ repoOwner = "" ∨ repoName = "" then
          watchLoop client now rest
            { s with errorLog := s.errorLog ++ [.invalidRepo repo] }
            allOldPullRequestURLs
        else
          match getOldPullRequestsForRepo client now repoOwner repoName s with
          | .error f => .error f
          | .ok (oldPullRequestURLsForRepo, s1) =>
            watchLoop client now rest s1
              (allOldPullRequestURLs ++ oldPullRequestURLsForRepo)

/-- The end of `main`: the notification built from the aggregated list.  Its
link is element 0 of the list. -/
def buildToast (allOldPullRequestURLs : List String) : Except Failure Toast :=
  let numOldPullRequests := allOldPullRequestURLs.length
  match allOldPullRequestURLs[0]? with
  | none => .error .indexOutOfRange
  | some link =>
    .ok { Message := "There are " ++ Nat.repr numOldPullRequests ++ " state pull requests"
          Title := "Stale Pull Requests"
          Subtitle := "Click to see newest stale PR"
          Link := link }

/-- The function `main`: the watch list, the token, the loop over the entries
and the notification.  The result is the notification handed to `Push`, the
aggregated list of URLs and the effects of the run.  An error of `Push` is only
logged and changes nothing of this result. -/
def main (cfg : Config) (client : GithubClient) (now : Clock) :
    Except Failure (Toast × List String × State) :=
  match getReposToWatch cfg with
  | .error f => .error f
  | .ok reposToWatch =>
    match getGithubAPIToken cfg with
    | .error f => .error f
    | .ok _ =>
      match watchLoop client now reposToWatch State.init [] with
      | .error f => .error f
      | .ok (allOldPullRequestURLs, s) =>
        match buildToast allOldPullRequestURLs with
        | .error f => .error f
        | .ok toast => .ok (toast, allOldPullRequestURLs, s)

/-! ## Specification level notions -/

/-- The pull request summary of the specification: a creation time and a URL,
both present. -/
structure PullRequestSummary where
  createdAt : Time
  url : String
  deriving DecidableEq

/-- The GitHub record of a summary: both pointers are set. -/
def PullRequestSummary.toPullRequest (p : PullRequestSummary) : PullRequest :=
  { CreatedAt := some p.createdAt, HTMLURL := some p.url }

/-- The staleness filter as the specification words it: the pull requests with
`createdAt < now - threshold`, in the order given. -/
def selectStale (now : Time) (threshold : Duration) (prs : List PullRequestSummary) :
    List PullRequestSummary :=
  prs.filter fun pr => decide (pr.createdAt < now - threshold)

/-- The URLs of the pull requests that are created before the cutoff of the
clock reading taken for them, when the first of them gets reading number `k`,
the second reading number `k + 1`, and so on. -/
def staleURLsFrom (limit : Duration) (now : Clock) (k : Nat) (prs : List PullRequestSummary) :
    List String :=
  ((prs.enumFrom k).filter fun p => decide (p.2.createdAt < now p.1 - limit)).map
    fun p => p.2.url

/-- A query service that answers with summaries, seen as a GitHub client. -/
def sourceClient (source : Nat → String → String → Except String (List PullRequestSummary)) :
    GithubClient :=
  fun n owner name =>
    match source n owner name with
    | .error err => .error err
    | .ok prs => .ok (prs.map PullRequestSummary.toPullRequest)

/-- The watch list parser of the specification on one entry: the entry is a
repository reference when it splits on `/` into exactly two non-empty parts. -/
def parseEntry (entry : String) : Option (String × String) :=
  match Split entry '/' with
  | [owner, name] => if owner ≠ "" ∧ name ≠ "" then some (owner, name) else none
  | _ => none

/-- The outcomes of the queries of a pass over the given repositories, when the
first of them is query number `q`. -/
def queryOutcomes {α : Type} (source : Nat → String → String → Except String α)
    (q : Nat) (refs : List (String × String)) : List (Except String α) :=
  (refs.enumFrom q).map fun p => source p.1 p.2.1 p.2.2

/-- The pull requests of one outcome: none when the query failed. -/
def pullRequestsOf {α : Type} : Except String (List α) → List α
  | .ok prs => prs
  | .error _ => []

/-- The log records of one outcome: one record when the query failed. -/
def fetchRecords {α : Type} : Except String α → List LogRecord
  | .ok _ => []
  | .error err => [.fetchFailed err]

/-- The pull requests examined by a pass, in order: those of every query that
succeeded. -/
def examined {α : Type} (outcomes : List (Except String (List α))) : List α :=
  (outcomes.map pullRequestsOf).flatten

/-- The pull request has a creation time before the cutoff. -/
def createdBefore (cutoff : Time) (pr : PullRequest) : Bool :=
  match pr.CreatedAt with
  | some createdAt => decide (createdAt < cutoff)
  | none => false

/-- The pull request at a numbered clock reading is created before the cutoff
of that reading. -/
def staleAt (limit : Duration) (now : Clock) (p : Nat × PullRequest) : Bool :=
  createdBefore (now p.1 - limit) p.2

/-- The URLs of the pull requests found stale at the clock reading taken for
them, when the first of them gets reading number `k`, the second reading number
`k + 1`, and so on. -/
def staleURLsOf (limit : Duration) (now : Clock) (k : Nat) (prs : List PullRequest) :
    List String :=
  ((prs.enumFrom k).filter (staleAt limit now)).filterMap fun p => p.2.HTMLURL

/-- No pointer read by the loop over these pull requests is nil: each has a
creation time, and each one found stale at its clock reading has a URL. -/
def dereferencesSucceed (limit : Duration) (now : Clock) (k : Nat) (prs : List PullRequest) :
    Bool :=
  (prs.enumFrom k).all fun p =>
    p.2.CreatedAt.isSome && (!staleAt limit now p || p.2.HTMLURL.isSome)

/-- The stale URLs contributed by each outcome of a pass, one list for each
outcome, when the first clock reading of the pass has number `k`. -/
def contributions (limit : Duration) (now : Clock) :
    Nat → List (Except String (List PullRequest)) → List (List String)
  | _, [] => []
  | k, o :: os =>
    staleURLsOf limit now k (pullRequestsOf o) ::
      contributions limit now (k + (pullRequestsOf o).length) os

/-! ## Sample inputs -/

/-- A service whose first query fails and whose later queries return a pull
request with a URL created at the epoch and a pull request without a URL
created 48 hours later. -/
def mixedClient : GithubClient
  | 0, _, _ => .error "timeout"
  | _, owner, name =>
    .ok [{ CreatedAt := some 0, HTMLURL := some (owner ++ "/" ++ name ++ "/pull/1") },
         { CreatedAt := some (48 * Hour), HTMLURL := none }]

/-- A service that returns, for the owner `a`, one pull request created at the
epoch without a URL, and for every other owner one pull request created at the
epoch with a URL. -/
def staleNoURLFirstClient : GithubClient
  | _, "a", _ => .ok [{ CreatedAt := some 0, HTMLURL := none }]
  | _, _, _ => .ok [{ CreatedAt := some 0, HTMLURL := some "b1" }]

/-- A service that returns, for the owner `a`, one pull request created at the
epoch with a URL, and for every other owner one pull request created at the
epoch without a URL. -/
def staleNoURLLastClient : GithubClient
  | _, "a", _ => .ok [{ CreatedAt := some 0, HTMLURL := some "a1" }]
  | _, _, _ => .ok [{ CreatedAt := some 0, HTMLURL := none }]

/-- A service that returns three pull requests for the owner `a`, the second of
them without a URL and one hour old at the sample clock, and one pull request
for every other owner. -/
def orderClient : GithubClient
  | _, "a", _ =>
    .ok [{ CreatedAt := some 0, HTMLURL := some "a1" },
         { CreatedAt := some (48 * Hour), HTMLURL := none },
         { CreatedAt := some (-5), HTMLURL := some "a3" }]
  | _, _, _ => .ok [{ CreatedAt := some 0, HTMLURL := some "b1" }]

/-- A service that returns two pull requests created at the epoch, the first of
them without a URL. -/
def noURLClient : GithubClient :=
  fun _ _ _ => .ok [{ CreatedAt := some 0, HTMLURL := none },
                    { CreatedAt := some 0, HTMLURL := some "u2" }]

/-- A service that returns two pull requests with a URL, created at the epoch,
and between them a pull request without a URL created 48 hours later. -/
def freshNoURLClient : GithubClient :=
  fun _ _ _ => .ok [{ CreatedAt := some 0, HTMLURL := some "u1" },
                    { CreatedAt := some (48 * Hour), HTMLURL := none },
                    { CreatedAt := some 0, HTMLURL := some "u3" }]

/-- A clock that advances by one hour at each reading, from 48 hours after the
epoch. -/
def tickingClock : Clock := fun n => 48 * Hour + n * Hour

/-- A service that returns three pull requests, created 30 minutes after the
epoch, at the epoch and 90 minutes after the epoch. -/
def tickingSource : Nat → String → String → Except String (List PullRequestSummary) :=
  fun _ _ _ => .ok [{ createdAt := 30 * Minute, url := "p1" }, { createdAt := 0, url := "p2" },
                    { createdAt := 90 * Minute, url := "p3" }]

/-- A clock that always shows the instant 49 hours after the epoch. -/
def sampleClock : Clock := fun _ => 49 * Hour

/-- A service whose first query fails and whose later queries return one pull
request, created at the epoch. -/
def sampleSource : Nat → String → String → Except String (List PullRequestSummary)
  | 0, _, _ => .error "timeout"
  | _, owner, name => .ok [{ createdAt := 0, url := owner ++ "/" ++ name ++ "/pull/1" }]

/-- A service that returns three pull requests for the owner `a`, the second
of them one hour old at the sample clock, and one pull request for every other
owner. -/
def orderSource : Nat → String → String → Except String (List PullRequestSummary)
  | _, "a", _ =>
    .ok [{ createdAt := 0, url := "a1" }, { createdAt := 48 * Hour, url := "a2" },
         { createdAt := -5, url := "a3" }]
  | _, _, _ => .ok [{ createdAt := 0, url := "b1" }]

/-! ## Lemmas on the library functions -/

theorem splitAux_ne_nil (sep : Char) (cs cur : List Char) : splitAux sep cs cur ≠ [] := by
  induction cs generalizing cur with
  | nil => simp [splitAux]
  | cons c cs ih =>
    unfold splitAux
    split
    · simp
    · exact ih _

theorem splitAux_of_not_mem (sep : Char) (cs cur : List Char) (h : sep ∉ cs) :
    splitAux sep cs cur = [cur ++ cs] := by
  induction cs generalizing cur with
  | nil => simp [splitAux]
  | cons c cs ih =>
    have hc : c ≠ sep := fun e => h (by simp [e])
    have hcs : sep ∉ cs := fun e => h (by simp [e])
    unfold splitAux
    rw [if_neg hc, ih _ hcs]
    simp

theorem splitAux_length_of_mem (sep : Char) (cs cur : List Char) (h : sep ∈ cs) :
    2 ≤ (splitAux sep cs cur).length := by
  induction cs generalizing cur with
  | nil => simp at h
  | cons c cs ih =>
    unfold splitAux
    by_cases hc : c = sep
    · rw [if_pos hc]
      have := splitAux_ne_nil sep cs []
      cases hs : splitAux sep cs [] with
      | nil => exact absurd hs this
      | cons a l => simp
    · rw [if_neg hc]
      apply ih
      rcases List.mem_cons.mp h with h1 | h1
      · exact absurd h1.symm hc
      · exact h1

/-- An entry without the separator splits into itself alone. -/
theorem Split_of_not_mem (s : String) (sep : Char) (h : sep ∉ s.toList) :
    Split s sep = [s] := by
  unfold Split
  rw [splitAux_of_not_mem sep _ _ h]
  simp

/-- An entry with the separator splits into at least two pieces. -/
theorem Split_length_of_mem (s : String) (sep : Char) (h : sep ∈ s.toList) :
    2 ≤ (Split s sep).length := by
  unfold Split
  simpa using splitAux_length_of_mem sep _ [] h

/-! ## Lemmas on the loop over the pull requests -/

theorem staleURLsFrom_nil (limit : Duration) (now : Clock) (k : Nat) :
    staleURLsFrom limit now k [] = [] := by
  simp [staleURLsFrom]

theorem staleURLsFrom_cons (limit : Duration) (now : Clock) (k : Nat)
    (p : PullRequestSummary) (prs : List PullRequestSummary) :
    staleURLsFrom limit now k (p :: prs) =
      (if p.createdAt < now k - limit then [p.url] else []) ++
        staleURLsFrom limit now (k + 1) prs := by
  by_cases h : p.createdAt < now k - limit <;>
    simp [staleURLsFrom, List.enumFrom_cons, List.filter_cons, h]

theorem staleURLsFrom_append (limit : Duration) (now : Clock) (k : Nat)
    (xs ys : List PullRequestSummary) :
    staleURLsFrom limit now k (xs ++ ys) =
      staleURLsFrom limit now k xs ++ staleURLsFrom limit now (k + xs.length) ys := by
  induction xs generalizing k with
  | nil => simp [staleURLsFrom_nil]
  | cons p xs ih =>
    simp only [List.cons_append, staleURLsFrom_cons, ih, List.length_cons, List.append_assoc]
    congr 3
    omega

/-- On pull requests that have a creation time and a URL the loop ends normally:
it appends the URLs of the stale ones and takes one clock reading for each. -/
theorem oldPullRequestsLoop_summaries (limit : Duration) (now : Clock)
    (prs : List PullRequestSummary) (k : Nat) (acc : List String) :
    oldPullRequestsLoop limit now (prs.map PullRequestSummary.toPullRequest) k acc =
      .ok (acc ++ staleURLsFrom limit now k prs, k + prs.length) := by
  induction prs generalizing k acc with
  | nil => simp [oldPullRequestsLoop, staleURLsFrom_nil]
  | cons p prs ih =>
    simp only [List.map_cons, oldPullRequestsLoop, PullRequestSummary.toPullRequest,
      staleURLsFrom_cons, tooManyDaysAgo, Time.Add, Time.Before]
    have e : now k + -1 * limit = now k - limit := by ring
    simp only [e]
    by_cases h : p.createdAt < now k - limit
    · simp only [h, decide_True, if_true]
      have := ih (k + 1) (acc ++ [p.url])
      simp only [PullRequestSummary.toPullRequest] at this
      rw [this]
      simp [Nat.add_assoc, Nat.add_comm 1]
    · simp only [h, decide_False, if_false]
      have := ih (k + 1) acc
      simp only [PullRequestSummary.toPullRequest] at this
      rw [this]
      simp [Nat.add_assoc, Nat.add_comm 1]

/-- With a clock that always shows the same instant, the stale URLs are those of
the filter of the specification. -/
theorem staleURLsFrom_const (limit : Duration) (now : Clock) (t : Time) (h : ∀ i, now i = t)
    (k : Nat) (prs : List PullRequestSummary) :
    staleURLsFrom limit now k prs = (selectStale t limit prs).map fun p => p.url := by
  induction prs generalizing k with
  | nil => simp [staleURLsFrom_nil, selectStale]
  | cons p prs ih =>
    rw [staleURLsFrom_cons, ih, h k]
    by_cases hp : p.createdAt < t - limit <;> simp [selectStale, List.filter_cons, hp]

/-- On pull requests that all have a creation time the loop either ends
normally, when every pull request found stale has a URL, or panics on the first
stale pull request without one. -/
theorem oldPullRequestsLoop_created (limit : Duration) (now : Clock)
    (prs : List PullRequest) (k : Nat) (acc : List String)
    (hc : ∀ pr ∈ prs, pr.CreatedAt.isSome = true) :
    oldPullRequestsLoop limit now prs k acc =
      if ∀ p ∈ prs.enumFrom k, staleAt limit now p = true → p.2.HTMLURL.isSome = true then
        .ok (acc ++ ((prs.enumFrom k).filter (staleAt limit now)).filterMap (fun p => p.2.HTMLURL),
          k + prs.length)
      else .error .nilDereference := by
  induction prs generalizing k acc with
  | nil => simp [oldPullRequestsLoop]
  | cons pr prs ih =>
    have hc1 : ∀ q ∈ prs, q.CreatedAt.isSome = true := fun q hq => hc q (by simp [hq])
    have hpr := hc pr (by simp)
    obtain ⟨c, u⟩ := pr
    cases c with
    | none => simp at hpr
    | some c =>
      have e : now k + -1 * limit = now k - limit := by ring
      simp only [oldPullRequestsLoop, tooManyDaysAgo, Time.Add, Time.Before, e,
        List.enumFrom_cons, List.forall_mem_cons, staleAt, createdBefore, List.filter_cons]
      by_cases h : c < now k - limit
      · cases u with
        | none => simp [h]
        | some u =>
          simp only [h, decide_True, if_true, Option.isSome_some, forall_true_left, true_and]
          rw [ih (k + 1) (acc ++ [u]) hc1]
          simp only [staleAt, createdBefore, List.filterMap_cons, List.append_assoc,
            List.singleton_append]
          have e2 : k + 1 + prs.length = k + (prs.length + 1) := by omega
          simp [e2]
      · simp only [h, decide_False, if_false, Bool.false_eq_true, false_implies, true_and]
        rw [ih (k + 1) acc hc1]
        have e2 : k + 1 + prs.length = k + (prs.length + 1) := by omega
        simp [staleAt, createdBefore, e2]

/-! ## Lemmas on one query -/

/-- A failed query: the error is logged, no clock reading is taken and `nil` is
returned. -/
theorem getOldPullRequestsForRepo_error (client : GithubClient) (now : Clock)
    (repoOwner repoName : String) (s : State) (err : String)
    (h : client s.queried.length repoOwner repoName = .error err) :
    getOldPullRequestsForRepo client now repoOwner repoName s =
      .ok ([], { ticks := s.ticks, queried := s.queried ++ [(repoOwner, repoName)],
                 errorLog := s.errorLog ++ [.fetchFailed err] }) := by
  simp [getOldPullRequestsForRepo, h]

/-- A query answered with summaries never fails: it yields the stale URLs of the
pull requests of its outcome. -/
theorem getOldPullRequestsForRepo_source
    (source : Nat → String → String → Except String (List PullRequestSummary)) (now : Clock)
    (repoOwner repoName : String) (s : State) :
    getOldPullRequestsForRepo (sourceClient source) now repoOwner repoName s =
      .ok (staleURLsFrom stalePullRequestTimeLimitDays now s.ticks
            (pullRequestsOf (source s.queried.length repoOwner repoName)),
          { ticks := s.ticks + (pullRequestsOf (source s.queried.length repoOwner repoName)).length,
            queried := s.queried ++ [(repoOwner, repoName)],
            errorLog := s.errorLog ++ fetchRecords (source s.queried.length repoOwner repoName) }) := by
  cases h : source s.queried.length repoOwner repoName with
  | error err =>
    simp [getOldPullRequestsForRepo, sourceClient, h, pullRequestsOf, staleURLsFrom_nil,
      fetchRecords]
  | ok prs =>
    simp [getOldPullRequestsForRepo, sourceClient, h, pullRequestsOf,
      oldPullRequestsLoop_summaries, fetchRecords]

/-! ## Lemmas on the loop over the watch list -/

/-- An entry without `/`: reading element 1 of its split panics. -/
theorem watchLoop_cons_no_slash (client : GithubClient) (now : Clock) (repo : String)
    (rest : List String) (s : State) (acc : List String) (h : '/' ∉ repo.toList) :
    watchLoop client now (repo :: rest) s acc = .error .indexOutOfRange := by
  simp [watchLoop, Split_of_not_mem repo '/' h]

/-- An entry with a `/` that is not a repository reference is logged and
skipped. -/
theorem watchLoop_cons_invalid (client : GithubClient) (now : Clock) (repo : String)
    (rest : List String) (s : State) (acc : List String) (h : '/' ∈ repo.toList)
    (hp : parseEntry repo = none) :
    watchLoop client now (repo :: rest) s acc =
      watchLoop client now rest { s with errorLog := s.errorLog ++ [.invalidRepo repo] } acc := by
  have h2 := Split_length_of_mem repo '/' h
  rcases hs : Split repo '/' with _ | ⟨a, _ | ⟨b, l⟩⟩
  · simp [hs] at h2
  · simp [hs] at h2
  · cases l with
    | nil =>
      simp only [parseEntry, hs] at hp
      have hp2 : ¬ (a ≠ "" ∧ b ≠ "") := by
        intro hh
        simp [hh] at hp
      have hp3 : a = "" ∨ b = "" := by
        by_cases ha : a = ""
        · exact Or.inl ha
        · by_cases hb : b = ""
          · exact Or.inr hb
          · exact absurd ⟨ha, hb⟩ hp2
      simp [watchLoop, hs, hp3]
    | cons c l => simp [watchLoop, hs]

/-- An entry that is a repository reference is queried and its URLs are
appended. -/
theorem watchLoop_cons_valid (client : GithubClient) (now : Clock) (repo : String)
    (rest : List String) (s : State) (acc : List String) (owner name : String)
    (hp : parseEntry repo = some (owner, name)) :
    watchLoop client now (repo :: rest) s acc =
      match getOldPullRequestsForRepo client now owner name s with
      | .error f => .error f
      | .ok (urls, s1) => watchLoop client now rest s1 (acc ++ urls) := by
  rcases hs : Split repo '/' with _ | ⟨a, _ | ⟨b, _ | ⟨c, l⟩⟩⟩
  · simp [parseEntry, hs] at hp
  · simp [parseEntry, hs] at hp
  · simp only [parseEntry, hs] at hp
    by_cases hh : a ≠ "" ∧ b ≠ ""
    · simp only [hh, and_self, if_true, Option.some.injEq, Prod.mk.injEq, ne_eq,
        not_false_eq_true] at hp
      obtain ⟨rfl, rfl⟩ := hp
      simp [watchLoop, hs, hh.1, hh.2]
    · simp [hh] at hp
  · simp [parseEntry, hs] at hp

/-! ## Lemmas on a pass against any service -/

theorem queryOutcomes_cons {α : Type} (source : Nat → String → String → Except String α)
    (q : Nat) (owner name : String) (refs : List (String × String)) :
    queryOutcomes source q ((owner, name) :: refs) =
      source q owner name :: queryOutcomes source (q + 1) refs := by
  simp [queryOutcomes, List.enumFrom_cons]

theorem examined_cons {α : Type} (o : Except String (List α))
    (os : List (Except String (List α))) :
    examined (o :: os) = pullRequestsOf o ++ examined os := by
  simp [examined]

theorem staleURLsOf_nil (limit : Duration) (now : Clock) (k : Nat) :
    staleURLsOf limit now k [] = [] := by
  simp [staleURLsOf]

theorem staleURLsOf_cons (limit : Duration) (now : Clock) (k : Nat) (pr : PullRequest)
    (prs : List PullRequest) :
    staleURLsOf limit now k (pr :: prs) =
      (if staleAt limit now (k, pr) = true then pr.HTMLURL.toList else []) ++
        staleURLsOf limit now (k + 1) prs := by
  by_cases h : staleAt limit now (k, pr) = true
  · cases hu : pr.HTMLURL <;>
      simp [staleURLsOf, List.enumFrom_cons, List.filter_cons, h, List.filterMap_cons, hu]
  · simp [staleURLsOf, List.enumFrom_cons, List.filter_cons, h]

theorem staleURLsOf_append (limit : Duration) (now : Clock) (k : Nat)
    (xs ys : List PullRequest) :
    staleURLsOf limit now k (xs ++ ys) =
      staleURLsOf limit now k xs ++ staleURLsOf limit now (k + xs.length) ys := by
  simp [staleURLsOf, List.enumFrom_append]

theorem dereferencesSucceed_nil (limit : Duration) (now : Clock) (k : Nat) :
    dereferencesSucceed limit now k [] = true := by
  simp [dereferencesSucceed]

theorem dereferencesSucceed_cons (limit : Duration) (now : Clock) (k : Nat) (pr : PullRequest)
    (prs : List PullRequest) :
    dereferencesSucceed limit now k (pr :: prs) =
      ((pr.CreatedAt.isSome && (!staleAt limit now (k, pr) || pr.HTMLURL.isSome)) &&
        dereferencesSucceed limit now (k + 1) prs) := by
  simp [dereferencesSucceed, List.enumFrom_cons]

theorem dereferencesSucceed_append (limit : Duration) (now : Clock) (k : Nat)
    (xs ys : List PullRequest) :
    dereferencesSucceed limit now k (xs ++ ys) =
      (dereferencesSucceed limit now k xs &&
        dereferencesSucceed limit now (k + xs.length) ys) := by
  simp [dereferencesSucceed, List.enumFrom_append]

/-- The loop over any pull requests: it ends normally exactly when no pointer it
reads is nil, and it then appends the URLs of the pull requests found stale;
otherwise it stops with a nil pointer dereference. -/
theorem oldPullRequestsLoop_eq (limit : Duration) (now : Clock) (prs : List PullRequest)
    (k : Nat) (acc : List String) :
    oldPullRequestsLoop limit now prs k acc =
      if dereferencesSucceed limit now k prs = true then
        .ok (acc ++ staleURLsOf limit now k prs, k + prs.length)
      else .error .nilDereference := by
  induction prs generalizing k acc with
  | nil => simp [oldPullRequestsLoop, staleURLsOf_nil, dereferencesSucceed_nil]
  | cons pr prs ih =>
    have e : now k + -1 * limit = now k - limit := by ring
    have e2 : k + 1 + prs.length = k + (prs.length + 1) := by omega
    obtain ⟨c, u⟩ := pr
    cases c with
    | none => simp [oldPullRequestsLoop, dereferencesSucceed_cons]
    | some c =>
      simp only [oldPullRequestsLoop, tooManyDaysAgo, Time.Add, Time.Before, e,
        dereferencesSucceed_cons, staleURLsOf_cons, staleAt, createdBefore, List.length_cons]
      by_cases h : c < now k - limit
      · cases u with
        | none => simp [h]
        | some u =>
          simp only [h, decide_True, if_true]
          rw [ih (k + 1) (acc ++ [u])]
          simp [staleAt, createdBefore, e2]
      · simp only [h, decide_False, if_false]
        rw [ih (k + 1) acc]
        simp [staleAt, createdBefore, e2]

/-- One query against any service: a failed query or a list on which no pointer
read is nil gives the stale URLs of the outcome; otherwise the function stops
with a nil pointer dereference. -/
theorem getOldPullRequestsForRepo_eq (client : GithubClient) (now : Clock)
    (repoOwner repoName : String) (s : State) :
    getOldPullRequestsForRepo client now repoOwner repoName s =
      if dereferencesSucceed stalePullRequestTimeLimitDays now s.ticks
          (pullRequestsOf (client s.queried.length repoOwner repoName)) = true then
        .ok (staleURLsOf stalePullRequestTimeLimitDays now s.ticks
              (pullRequestsOf (client s.queried.length repoOwner repoName)),
            { ticks := s.ticks +
                (pullRequestsOf (client s.queried.length repoOwner repoName)).length,
              queried := s.queried ++ [(repoOwner, repoName)],
              errorLog := s.errorLog ++
                fetchRecords (client s.queried.length repoOwner repoName) })
      else .error .nilDereference := by
  cases h : client s.queried.length repoOwner repoName with
  | error err =>
    simp [getOldPullRequestsForRepo, h, pullRequestsOf, staleURLsOf_nil,
      dereferencesSucceed_nil, fetchRecords]
  | ok prs =>
    simp only [getOldPullRequestsForRepo, h, pullRequestsOf, oldPullRequestsLoop_eq,
      fetchRecords]
    by_cases hd : dereferencesSucceed stalePullRequestTimeLimitDays now s.ticks prs = true
    · simp [hd]
    · simp [hd]

/-- The pass over entries that all contain a `/`, against any service.  When no
pointer read on the pull requests examined is nil, the loop ends normally: it
has queried the repository references among the entries in order and appended
the stale URLs of the pull requests examined.  Otherwise the loop stops with a
nil pointer dereference. -/
theorem watchLoop_entries_with_slash (client : GithubClient) (now : Clock)
    (entries : List String) (s : State) (acc : List String)
    (h : ∀ e ∈ entries, '/' ∈ e.toList) :
    (dereferencesSucceed stalePullRequestTimeLimitDays now s.ticks
        (examined (queryOutcomes client s.queried.length (entries.filterMap parseEntry))) = true →
      ∃ s1, watchLoop client now entries s acc =
          .ok (acc ++ staleURLsOf stalePullRequestTimeLimitDays now s.ticks
                (examined (queryOutcomes client s.queried.length
                  (entries.filterMap parseEntry))), s1) ∧
        s1.ticks = s.ticks +
          (examined (queryOutcomes client s.queried.length
            (entries.filterMap parseEntry))).length ∧
        s1.queried = s.queried ++ entries.filterMap parseEntry) ∧
    (dereferencesSucceed stalePullRequestTimeLimitDays now s.ticks
        (examined (queryOutcomes client s.queried.length (entries.filterMap parseEntry))) = false →
      watchLoop client now entries s acc = .error .nilDereference) := by
  induction entries generalizing s acc with
  | nil =>
    constructor
    · intro _
      exact ⟨s, by simp [watchLoop, queryOutcomes, examined, staleURLsOf_nil],
        by simp [queryOutcomes, examined], by simp⟩
    · intro hd
      simp [queryOutcomes, examined, dereferencesSucceed_nil] at hd
  | cons e es ih =>
    have he : '/' ∈ e.toList := h e (by simp)
    have hes : ∀ x ∈ es, '/' ∈ x.toList := fun x hx => h x (by simp [hx])
    cases hp : parseEntry e with
    | none =>
      rw [watchLoop_cons_invalid _ _ _ _ _ _ he hp]
      have ih1 := ih { s with errorLog := s.errorLog ++ [.invalidRepo e] } acc hes
      simpa [List.filterMap_cons, hp] using ih1
    | some ref =>
      obtain ⟨owner, name⟩ := ref
      rw [watchLoop_cons_valid _ _ _ _ _ _ owner name hp, getOldPullRequestsForRepo_eq]
      simp only [List.filterMap_cons, hp, queryOutcomes_cons, examined_cons,
        dereferencesSucceed_append, staleURLsOf_append, List.length_append]
      by_cases hd : dereferencesSucceed stalePullRequestTimeLimitDays now s.ticks
          (pullRequestsOf (client s.queried.length owner name)) = true
      · simp only [hd, if_true, Bool.true_and]
        have ih1 := ih
          { ticks := s.ticks + (pullRequestsOf (client s.queried.length owner name)).length,
            queried := s.queried ++ [(owner, name)],
            errorLog := s.errorLog ++ fetchRecords (client s.queried.length owner name) }
          (acc ++ staleURLsOf stalePullRequestTimeLimitDays now s.ticks
            (pullRequestsOf (client s.queried.length owner name))) hes
        simp only [List.length_append, List.length_singleton] at ih1
        refine ⟨?_, ih1.2⟩
        intro hrest
        obtain ⟨s1, h1, h2, h3⟩ := ih1.1 hrest
        refine ⟨s1, ?_, ?_, ?_⟩
        · rw [h1]
          simp
        · rw [h2]
          simp [Nat.add_assoc]
        · rw [h3]
          simp
      · simp [hd]

theorem staleURLsOf_examined (limit : Duration) (now : Clock) (k : Nat)
    (outs : List (Except String (List PullRequest))) :
    staleURLsOf limit now k (examined outs) = (contributions limit now k outs).flatten := by
  induction outs generalizing k with
  | nil => simp [examined, contributions, staleURLsOf_nil]
  | cons o os ih => simp [examined_cons, contributions, staleURLsOf_append, ih]

/-- When no pointer read is nil, there are as many stale URLs as pull requests
found stale. -/
theorem staleURLsOf_length (limit : Duration) (now : Clock) (k : Nat) (prs : List PullRequest)
    (hd : dereferencesSucceed limit now k prs = true) :
    (staleURLsOf limit now k prs).length = (prs.enumFrom k).countP (staleAt limit now) := by
  induction prs generalizing k with
  | nil => simp [staleURLsOf_nil]
  | cons pr prs ih =>
    rw [dereferencesSucceed_cons] at hd
    simp only [Bool.and_eq_true, Bool.or_eq_true, Bool.not_eq_true'] at hd
    obtain ⟨⟨_, hu⟩, hrest⟩ := hd
    rw [staleURLsOf_cons, List.enumFrom_cons, List.countP_cons, List.length_append,
      ih (k + 1) hrest]
    by_cases hs : staleAt limit now (k, pr) = true
    · rcases hu with hu | hu
      · rw [hs] at hu
        cases hu
      · obtain ⟨u, hu1⟩ := Option.isSome_iff_exists.mp hu
        simp [hs, hu1, Nat.add_comm]
    · simp [hs]

theorem staleURLsOf_sublist (limit : Duration) (now : Clock) (k : Nat)
    (prs : List PullRequest) :
    List.Sublist (staleURLsOf limit now k prs) (prs.filterMap fun pr => pr.HTMLURL) := by
  induction prs generalizing k with
  | nil => simp [staleURLsOf_nil]
  | cons pr prs ih =>
    rw [staleURLsOf_cons]
    cases hu : pr.HTMLURL with
    | none => simpa [List.filterMap_cons, hu] using ih (k + 1)
    | some u =>
      by_cases hs : staleAt limit now (k, pr) = true
      · simpa [List.filterMap_cons, hu, hs] using ih (k + 1)
      · simpa [List.filterMap_cons, hu, hs] using
          (ih (k + 1)).trans (List.sublist_cons_self _ _)

/-- With a clock that always shows the same instant, the pull requests found
stale are those created before the cutoff of that instant. -/
theorem staleURLsOf_const (limit : Duration) (now : Clock) (t : Time) (h : ∀ i, now i = t)
    (k : Nat) (prs : List PullRequest) :
    staleURLsOf limit now k prs =
      (prs.filter (createdBefore (t - limit))).filterMap fun pr => pr.HTMLURL := by
  induction prs generalizing k with
  | nil => simp [staleURLsOf_nil]
  | cons pr prs ih =>
    rw [staleURLsOf_cons, ih]
    simp only [staleAt, h k, List.filter_cons]
    by_cases hs : createdBefore (t - limit) pr = true
    · cases hu : pr.HTMLURL <;> simp [hs, hu, List.filterMap_cons]
    · simp [hs]

theorem countP_staleAt_const (limit : Duration) (now : Clock) (t : Time) (h : ∀ i, now i = t)
    (k : Nat) (prs : List PullRequest) :
    (prs.enumFrom k).countP (staleAt limit now) = prs.countP (createdBefore (t - limit)) := by
  induction prs generalizing k with
  | nil => simp
  | cons pr prs ih =>
    rw [List.enumFrom_cons, List.countP_cons, List.countP_cons, ih]
    simp [staleAt, h k]

theorem countP_examined (p : PullRequest → Bool)
    (outs : List (Except String (List PullRequest))) :
    (examined outs).countP p = (outs.map fun o => (pullRequestsOf o).countP p).sum := by
  induction outs with
  | nil => simp [examined]
  | cons o os ih => simp [examined_cons, ih]

theorem contributions_const (limit : Duration) (now : Clock) (t : Time) (h : ∀ i, now i = t)
    (k : Nat) (outs : List (Except String (List PullRequest))) :
    contributions limit now k outs =
      outs.map fun o =>
        ((pullRequestsOf o).filter (createdBefore (t - limit))).filterMap
          fun pr => pr.HTMLURL := by
  induction outs generalizing k with
  | nil => simp [contributions]
  | cons o os ih => simp [contributions, ih, staleURLsOf_const limit now t h]

theorem contributions_forall₂ (limit : Duration) (now : Clock) (k : Nat)
    (outs : List (Except String (List PullRequest))) :
    List.Forall₂
      (fun part o => List.Sublist part ((pullRequestsOf o).filterMap fun pr => pr.HTMLURL))
      (contributions limit now k outs) outs := by
  induction outs generalizing k with
  | nil => simp [contributions]
  | cons o os ih =>
    simp only [contributions, List.forall₂_cons]
    exact ⟨staleURLsOf_sublist _ _ _ _, ih _⟩

/-! ## Further lemmas -/

/-- With both settings present, `main` is the loop over the split watch list
followed by the notification. -/
theorem main_of_settings (cfg : Config) (client : GithubClient) (now : Clock)
    (hr : cfg.reposToWatch ≠ "") (ht : cfg.githubAPIToken ≠ "") :
    main cfg client now =
      match watchLoop client now (Split cfg.reposToWatch ';') State.init [] with
      | .error f => .error f
      | .ok (urls, s) =>
        match buildToast urls with
        | .error f => .error f
        | .ok toast => .ok (toast, urls, s) := by
  simp [main, getReposToWatch, getGithubAPIToken, hr, ht]

/-- A larger limit selects a sub-sequence of the URLs. -/
theorem staleURLsFrom_antitone (t1 t2 : Duration) (h : t1 ≤ t2) (now : Clock) (k : Nat)
    (prs : List PullRequestSummary) :
    List.Sublist (staleURLsFrom t2 now k prs) (staleURLsFrom t1 now k prs) := by
  induction prs generalizing k with
  | nil => simp [staleURLsFrom_nil]
  | cons p prs ih =>
    rw [staleURLsFrom_cons, staleURLsFrom_cons]
    by_cases h2 : p.createdAt < now k - t2
    · have h1 : p.createdAt < now k - t1 := by linarith
      simpa [h1, h2] using ih (k + 1)
    · by_cases h1 : p.createdAt < now k - t1
      · simpa [h1, h2] using (ih (k + 1)).trans (List.sublist_cons_self _ _)
      · simpa [h1, h2] using ih (k + 1)

/-- The filter at an instant not after any reading selects a sub-sequence of the
URLs selected with the readings. -/
theorem selectStale_urls_sublist_staleURLsFrom (limit : Duration) (now : Clock) (t : Time)
    (k : Nat) (prs : List PullRequestSummary)
    (h : ∀ j, k ≤ j → j < k + prs.length → t ≤ now j) :
    List.Sublist ((selectStale t limit prs).map fun p => p.url)
      (staleURLsFrom limit now k prs) := by
  induction prs generalizing k with
  | nil => simp [staleURLsFrom_nil, selectStale]
  | cons p prs ih =>
    have hk : t ≤ now k := h k (Nat.le_refl k) (by simp)
    have ih1 := ih (k + 1) (fun j hj1 hj2 => h j (by omega) (by simp; omega))
    rw [staleURLsFrom_cons]
    simp only [selectStale, List.filter_cons] at ih1 ⊢
    by_cases h1 : p.createdAt < t - limit
    · have h2 : p.createdAt < now k - limit := by linarith
      simpa [h1, h2] using ih1
    · by_cases h2 : p.createdAt < now k - limit
      · simpa [h1, h2] using ih1.trans (List.sublist_cons_self _ _)
      · simpa [h1, h2] using ih1

/-- The URLs selected with the readings are a sub-sequence of those of the
filter at an instant not before any reading. -/
theorem staleURLsFrom_sublist_selectStale_urls (limit : Duration) (now : Clock) (t : Time)
    (k : Nat) (prs : List PullRequestSummary)
    (h : ∀ j, k ≤ j → j < k + prs.length → now j ≤ t) :
    List.Sublist (staleURLsFrom limit now k prs)
      ((selectStale t limit prs).map fun p => p.url) := by
  induction prs generalizing k with
  | nil => simp [staleURLsFrom_nil, selectStale]
  | cons p prs ih =>
    have hk : now k ≤ t := h k (Nat.le_refl k) (by simp)
    have ih1 := ih (k + 1) (fun j hj1 hj2 => h j (by omega) (by simp; omega))
    rw [staleURLsFrom_cons]
    simp only [selectStale, List.filter_cons] at ih1 ⊢
    by_cases h2 : p.createdAt < now k - limit
    · have h1 : p.createdAt < t - limit := by linarith
      simpa [h1, h2] using ih1
    · by_cases h1 : p.createdAt < t - limit
      · simpa [h1, h2] using ih1.trans (List.sublist_cons_self _ _)
      · simpa [h1, h2] using ih1

/-! ## The claims -/

/-- C1, as stated: on the watch list `a/x`, `b/y`, where the query for `a/x`
returns one stale pull request without a URL, the loop of `main` does not
complete: it stops with a nil pointer dereference on that pull request, before
`b/y` is queried, and no count is produced. -/
theorem watchLoop_stops_on_stale_without_url :
    watchLoop staleNoURLFirstClient sampleClock ["a/x", "b/y"] State.init [] =
      .error .nilDereference ∧
    ¬ ∃ urls s1, watchLoop staleNoURLFirstClient sampleClock ["a/x", "b/y"] State.init [] =
      .ok (urls, s1) := by
  have h : watchLoop staleNoURLFirstClient sampleClock ["a/x", "b/y"] State.init [] =
      .error .nilDereference := by rfl
  refine ⟨h, ?_⟩
  rintro ⟨urls, s1, h1⟩
  rw [h] at h1
  cases h1

/-- C1, amended: for watch list entries that all contain a `/`, any service and
any clock.  A repository whose query fails contributes no URL.  When every pull
request returned by the queries that succeeded has a creation time, and every
one of them found stale has a URL, the loop of `main` completes over all
entries and queries every repository among them, and the number of URLs
collected is the number of those pull requests created before the cutoff of
the clock reading taken for them; when the clock shows one instant `t` that
number is the sum, over the repositories whose query succeeded, of the number
of their pull requests created before `t - stalePullRequestTimeLimitDays`.
Otherwise the loop stops with a nil pointer dereference. -/
theorem watchLoop_tolerates_failed_queries (client : GithubClient) (now : Clock)
    (entries : List String) (h : ∀ e ∈ entries, '/' ∈ e.toList) :
    (∀ (owner name : String) (s : State) (err : String),
        client s.queried.length owner name = .error err →
        ∃ s1, getOldPullRequestsForRepo client now owner name s = .ok ([], s1) ∧
          s1.queried = s.queried ++ [(owner, name)]) ∧
    (dereferencesSucceed stalePullRequestTimeLimitDays now 0
        (examined (queryOutcomes client 0 (entries.filterMap parseEntry))) = true →
      ∃ urls s1,
        watchLoop client now entries State.init [] = .ok (urls, s1) ∧
        s1.queried = entries.filterMap parseEntry ∧
        urls.length =
          ((examined (queryOutcomes client 0 (entries.filterMap parseEntry))).enumFrom 0).countP
            (staleAt stalePullRequestTimeLimitDays now) ∧
        ∀ t, (∀ i, now i = t) →
          urls.length =
            ((queryOutcomes client 0 (entries.filterMap parseEntry)).map fun o =>
              match o with
              | .ok prs => prs.countP (createdBefore (t - stalePullRequestTimeLimitDays))
              | .error _ => 0).sum) ∧
    (dereferencesSucceed stalePullRequestTimeLimitDays now 0
        (examined (queryOutcomes client 0 (entries.filterMap parseEntry))) = false →
      watchLoop client now entries State.init [] = .error .nilDereference) := by
  have hpass := watchLoop_entries_with_slash client now entries State.init [] h
  refine ⟨?_, ?_, ?_⟩
  · intro owner name s err herr
    exact ⟨_, getOldPullRequestsForRepo_error client now owner name s err herr, rfl⟩
  · intro hd
    obtain ⟨s1, h1, _, h3⟩ := hpass.1 hd
    have hlen := staleURLsOf_length _ _ _ _ hd
    refine ⟨_, s1, h1, ?_, ?_, ?_⟩
    · simpa [State.init] using h3
    · simpa [State.init] using hlen
    · intro t ht
      simp only [State.init, List.nil_append, List.length_nil]
      rw [hlen, countP_staleAt_const _ now t ht, countP_examined]
      congr 1
      apply List.map_congr_left
      intro o _
      cases o <;> simp [pullRequestsOf]
  · intro hd
    exact hpass.2 hd

/-- C1, amended, on the watch list `A/x`, `B/y` where the query for `A/x` fails
and the query for `B/y` returns one stale pull request and one that is not
stale and has no URL: the loop ends normally with one URL, the one of `B/y`. -/
theorem watchLoop_tolerates_failed_queries_witness :
    (∀ e ∈ ["A/x", "B/y"], '/' ∈ e.toList) ∧
    dereferencesSucceed stalePullRequestTimeLimitDays sampleClock 0
      (examined (queryOutcomes mixedClient 0 (["A/x", "B/y"].filterMap parseEntry))) = true ∧
    ∃ urls s1,
      watchLoop mixedClient sampleClock ["A/x", "B/y"] State.init [] = .ok (urls, s1) ∧
      urls = ["B/y/pull/1"] ∧ urls.length = 1 ∧ s1.queried = [("A", "x"), ("B", "y")] := by
  have hin : ∀ e ∈ ["A/x", "B/y"], '/' ∈ e.toList := by decide
  have hd : dereferencesSucceed stalePullRequestTimeLimitDays sampleClock 0
      (examined (queryOutcomes mixedClient 0 (["A/x", "B/y"].filterMap parseEntry))) = true := by
    rfl
  obtain ⟨urls, s1, hrun, hq, _, _⟩ :=
    (watchLoop_tolerates_failed_queries mixedClient sampleClock ["A/x", "B/y"] hin).2.1 hd
  have hv : watchLoop mixedClient sampleClock ["A/x", "B/y"] State.init [] =
      .ok (["B/y/pull/1"],
        { ticks := 2, queried := [("A", "x"), ("B", "y")],
          errorLog := [.fetchFailed "timeout"] }) := by rfl
  rw [hv] at hrun
  injection hrun with hrun
  injection hrun with hu hs
  subst hu
  exact ⟨hin, hd, _, s1, hv.trans (by rw [hs]), rfl, rfl, by rw [hq]; decide⟩

/-- C2: with a clock that shows the instant `now`, for every time limit, the
loop of `getOldPullRequestsForRepo` over pull requests that have a creation time
and a URL returns the URLs of exactly those with `createdAt < now - limit`, in
order; a single pull request is reported if and only if it is strictly older
than the cutoff, and one created exactly at `now - limit` is not reported.  The
function itself does so with the limit `stalePullRequestTimeLimitDays`. -/
theorem getOldPullRequestsForRepo_reports_strictly_older (now : Time) (limit : Duration) :
    (∀ (prs : List PullRequestSummary) (k : Nat),
      oldPullRequestsLoop limit (fun _ => now) (prs.map PullRequestSummary.toPullRequest) k [] =
        .ok ((prs.filter fun p => decide (p.createdAt < now - limit)).map (fun p => p.url),
          k + prs.length)) ∧
    (∀ (p : PullRequestSummary) (k : Nat),
      ∃ urls, oldPullRequestsLoop limit (fun _ => now) [p.toPullRequest] k [] =
          .ok (urls, k + 1) ∧
        (p.url ∈ urls ↔ p.createdAt < now - limit) ∧
        urls = if p.createdAt < now - limit then [p.url] else []) ∧
    (∀ (url : String) (k : Nat),
      oldPullRequestsLoop limit (fun _ => now)
        [({ createdAt := now - limit, url := url } : PullRequestSummary).toPullRequest] k [] =
        .ok ([], k + 1)) ∧
    (∀ (prs : List PullRequestSummary) (owner name : String) (s : State),
      ∃ s1, getOldPullRequestsForRepo (sourceClient fun _ _ _ => .ok prs) (fun _ => now)
          owner name s =
        .ok ((prs.filter fun p =>
            decide (p.createdAt < now - stalePullRequestTimeLimitDays)).map (fun p => p.url),
          s1)) := by
  have hl : ∀ (prs : List PullRequestSummary) (k : Nat),
      oldPullRequestsLoop limit (fun _ => now) (prs.map PullRequestSummary.toPullRequest) k [] =
        .ok ((prs.filter fun p => decide (p.createdAt < now - limit)).map (fun p => p.url),
          k + prs.length) := by
    intro prs k
    rw [oldPullRequestsLoop_summaries, staleURLsFrom_const limit (fun _ => now) now (fun _ => rfl)]
    simp [selectStale]
  refine ⟨hl, ?_, ?_, ?_⟩
  · intro p k
    have h1 := hl [p] k
    simp only [List.map_cons, List.map_nil, List.length_singleton] at h1
    by_cases hp : p.createdAt < now - limit
    · refine ⟨[p.url], ?_, by simp [hp], by simp [hp]⟩
      rw [h1]
      simp [List.filter_cons, hp]
    · refine ⟨[], ?_, by simp [hp], by simp [hp]⟩
      rw [h1]
      simp [List.filter_cons, hp]
  · intro url k
    have h1 := hl [{ createdAt := now - limit, url := url }] k
    simp only [List.map_cons, List.map_nil, List.length_singleton] at h1
    rw [h1]
    simp [List.filter_cons]
  · intro prs owner name s
    rw [getOldPullRequestsForRepo_source]
    simp only [pullRequestsOf]
    rw [staleURLsFrom_const _ (fun _ => now) now (fun _ => rfl)]
    exact ⟨_, rfl⟩

/-- C2, with `now` 100 hours after the epoch and a limit of 48 hours: of three
pull requests created 49, 47 and exactly 48 hours before `now`, only the first
is reported. -/
theorem getOldPullRequestsForRepo_reports_strictly_older_witness :
    oldPullRequestsLoop (48 * Hour) (fun _ => 100 * Hour)
      ([{ createdAt := 100 * Hour - 49 * Hour, url := "old" },
        { createdAt := 100 * Hour - 47 * Hour, url := "new" },
        { createdAt := 100 * Hour - 48 * Hour, url := "edge" }].map
          PullRequestSummary.toPullRequest) 0 [] = .ok (["old"], 3) :=
  ((getOldPullRequestsForRepo_reports_strictly_older (100 * Hour) (48 * Hour)).1
    [{ createdAt := 100 * Hour - 49 * Hour, url := "old" },
     { createdAt := 100 * Hour - 47 * Hour, url := "new" },
     { createdAt := 100 * Hour - 48 * Hour, url := "edge" }] 0).trans (by rfl)

/-- C3: the loop of `main` reads element 1 of the split of an entry before it
checks the shape of the entry, so an entry without `/` stops the pass with an
index out of range instead of being skipped: the watch list `bad;c/d` fails on
its first entry whatever the service answers, the watch list `a/b;` fails on
the empty entry after its `;`, and so does every entry without `/` that the
loop reaches. -/
theorem main_fails_on_entry_without_slash :
    (∀ (client : GithubClient) (now : Clock),
      main { reposToWatch := "bad;c/d", githubAPIToken := "token" } client now =
        .error .indexOutOfRange) ∧
    (∀ (source : Nat → String → String → Except String (List PullRequestSummary))
        (now : Clock),
      main { reposToWatch := "a/b;", githubAPIToken := "token" } (sourceClient source) now =
        .error .indexOutOfRange) ∧
    (∀ (client : GithubClient) (now : Clock) (repo : String) (rest : List String) (s : State)
        (all : List String), '/' ∉ repo.toList →
      watchLoop client now (repo :: rest) s all = .error .indexOutOfRange) := by
  refine ⟨?_, ?_, ?_⟩
  · intro client now
    rw [main_of_settings _ _ _ (by decide) (by decide)]
    have hs : Split "bad;c/d" ';' = ["bad", "c/d"] := by decide
    simp only [hs]
    rw [watchLoop_cons_no_slash _ _ _ _ _ _ (by decide)]
  · intro source now
    rw [main_of_settings _ _ _ (by decide) (by decide)]
    have hs : Split "a/b;" ';' = ["a/b", ""] := by decide
    simp only [hs]
    rw [watchLoop_cons_valid _ _ _ _ _ _ "a" "b" (by decide), getOldPullRequestsForRepo_source]
    simp only
    rw [watchLoop_cons_no_slash _ _ _ _ _ _ (by decide)]
  · intro client now repo rest s all h
    exact watchLoop_cons_no_slash client now repo rest s all h

/-- C4: on the watch list `a/b;bad;c/d` the specification has the repositories
`a/b` and `c/d` queried and `bad` reported, but `main` queries `a/b` and then
stops with an index out of range on `bad`: the valid entry `c/d` is never
queried. -/
theorem main_drops_entries_after_malformed
    (source : Nat → String → String → Except String (List PullRequestSummary)) (now : Clock) :
    (Split "a/b;bad;c/d" ';').filterMap parseEntry = [("a", "b"), ("c", "d")] ∧
    (Split "a/b;bad;c/d" ';').filter (fun e => (parseEntry e).isNone) = ["bad"] ∧
    main { reposToWatch := "a/b;bad;c/d", githubAPIToken := "token" } (sourceClient source) now =
      .error .indexOutOfRange := by
  refine ⟨by decide, by decide, ?_⟩
  rw [main_of_settings _ _ _ (by decide) (by decide)]
  have hs : Split "a/b;bad;c/d" ';' = ["a/b", "bad", "c/d"] := by decide
  simp only [hs]
  rw [watchLoop_cons_valid _ _ _ _ _ _ "a" "b" (by decide), getOldPullRequestsForRepo_source]
  simp only
  rw [watchLoop_cons_no_slash _ _ _ _ _ _ (by decide)]

/-- C5, as stated: on the watch list `a/x`, `b/y`, where `a/x` has one stale
pull request with a URL and the query for `b/y` returns a stale pull request
without a URL, no aggregated list is produced: the loop of `main` stops with a
nil pointer dereference. -/
theorem watchLoop_no_list_on_stale_without_url :
    watchLoop staleNoURLLastClient sampleClock ["a/x", "b/y"] State.init [] =
      .error .nilDereference ∧
    ¬ ∃ urls s1, watchLoop staleNoURLLastClient sampleClock ["a/x", "b/y"] State.init [] =
      .ok (urls, s1) := by
  have h : watchLoop staleNoURLLastClient sampleClock ["a/x", "b/y"] State.init [] =
      .error .nilDereference := by rfl
  refine ⟨h, ?_⟩
  rintro ⟨urls, s1, h1⟩
  rw [h] at h1
  cases h1

/-- C5, amended: for watch list entries that all contain a `/`, any service and
any clock.  When every pull request returned by the queries that succeeded has
a creation time, and every one of them found stale has a URL, the aggregated
list is the concatenation, in the order of the watch list, of the stale URLs of
each repository queried; otherwise the loop stops with a nil pointer
dereference.  The part of each repository is a sub-sequence, in the same
order, of the URLs of the pull requests returned for it, and it is empty when
the query returned no pull request.  When the clock shows one instant `t`
during the pass, the part of a repository is the list of URLs of its pull
requests created before `t - stalePullRequestTimeLimitDays`. -/
theorem watchLoop_urls_in_order (client : GithubClient) (now : Clock)
    (entries : List String) (h : ∀ e ∈ entries, '/' ∈ e.toList) :
    (dereferencesSucceed stalePullRequestTimeLimitDays now 0
        (examined (queryOutcomes client 0 (entries.filterMap parseEntry))) = true →
      ∃ s1, watchLoop client now entries State.init [] =
        .ok ((contributions stalePullRequestTimeLimitDays now 0
              (queryOutcomes client 0 (entries.filterMap parseEntry))).flatten, s1)) ∧
    (dereferencesSucceed stalePullRequestTimeLimitDays now 0
        (examined (queryOutcomes client 0 (entries.filterMap parseEntry))) = false →
      watchLoop client now entries State.init [] = .error .nilDereference) ∧
    List.Forall₂
      (fun part o => List.Sublist part ((pullRequestsOf o).filterMap fun pr => pr.HTMLURL))
      (contributions stalePullRequestTimeLimitDays now 0
        (queryOutcomes client 0 (entries.filterMap parseEntry)))
      (queryOutcomes client 0 (entries.filterMap parseEntry)) ∧
    (∀ (owner name : String) (s : State), client s.queried.length owner name = .ok [] →
      ∃ s2, getOldPullRequestsForRepo client now owner name s = .ok ([], s2)) ∧
    ∀ t, (∀ i, now i = t) →
      contributions stalePullRequestTimeLimitDays now 0
          (queryOutcomes client 0 (entries.filterMap parseEntry)) =
        (queryOutcomes client 0 (entries.filterMap parseEntry)).map fun o =>
          ((pullRequestsOf o).filter
            (createdBefore (t - stalePullRequestTimeLimitDays))).filterMap
              fun pr => pr.HTMLURL := by
  have hpass := watchLoop_entries_with_slash client now entries State.init [] h
  refine ⟨?_, hpass.2, contributions_forall₂ _ _ _ _, ?_, ?_⟩
  · intro hd
    obtain ⟨s1, h1, _, _⟩ := hpass.1 hd
    exact ⟨s1, by simpa [State.init, staleURLsOf_examined] using h1⟩
  · intro owner name s hs
    rw [getOldPullRequestsForRepo_eq, hs]
    simp only [pullRequestsOf, staleURLsOf_nil, dereferencesSucceed_nil, if_true]
    exact ⟨_, rfl⟩
  · intro t ht
    exact contributions_const _ now t ht 0 _

/-- C5, amended, on the watch list `a/x`, `b/y`: the two stale URLs of `a/x`,
in the order returned and around a pull request without a URL that is not
stale, come before the stale URL of `b/y`. -/
theorem watchLoop_urls_in_order_witness :
    (∀ e ∈ ["a/x", "b/y"], '/' ∈ e.toList) ∧
    dereferencesSucceed stalePullRequestTimeLimitDays sampleClock 0
      (examined (queryOutcomes orderClient 0 (["a/x", "b/y"].filterMap parseEntry))) = true ∧
    ∃ s1, watchLoop orderClient sampleClock ["a/x", "b/y"] State.init [] =
        .ok (["a1", "a3", "b1"], s1) ∧
      contributions stalePullRequestTimeLimitDays sampleClock 0
        (queryOutcomes orderClient 0 (["a/x", "b/y"].filterMap parseEntry)) =
        [["a1", "a3"], ["b1"]] := by
  have hin : ∀ e ∈ ["a/x", "b/y"], '/' ∈ e.toList := by decide
  have hd : dereferencesSucceed stalePullRequestTimeLimitDays sampleClock 0
      (examined (queryOutcomes orderClient 0 (["a/x", "b/y"].filterMap parseEntry))) = true := by
    rfl
  obtain ⟨s1, hrun⟩ :=
    (watchLoop_urls_in_order orderClient sampleClock ["a/x", "b/y"] hin).1 hd
  have hc : contributions stalePullRequestTimeLimitDays sampleClock 0
      (queryOutcomes orderClient 0 (["a/x", "b/y"].filterMap parseEntry)) =
      [["a1", "a3"], ["b1"]] := by rfl
  rw [hc] at hrun
  exact ⟨hin, hd, s1, hrun, hc⟩

/-- C6: when both settings are present and the loop over the watch list ends
normally with the aggregated list `urls`, the link of the notification is the
first element of `urls`; when `urls` is empty the read of element 0 is out of
range and `main` stops there without a notification; so `main` reaches the
notification exactly when at least one stale URL was collected. -/
theorem main_link_is_first_url (cfg : Config) (client : GithubClient) (now : Clock)
    (urls : List String) (s : State)
    (hr : cfg.reposToWatch ≠ "") (ht : cfg.githubAPIToken ≠ "")
    (hloop : watchLoop client now (Split cfg.reposToWatch ';') State.init [] = .ok (urls, s)) :
    (urls = [] → buildToast urls = .error .indexOutOfRange ∧
      main cfg client now = .error .indexOutOfRange) ∧
    (∀ u rest, urls = u :: rest →
      ∃ toast, main cfg client now = .ok (toast, urls, s) ∧ toast.Link = u) ∧
    ((∃ r, main cfg client now = .ok r) ↔ urls ≠ []) := by
  rw [main_of_settings cfg client now hr ht, hloop]
  cases urls with
  | nil =>
    refine ⟨fun _ => ⟨rfl, rfl⟩, fun u rest hu => by simp at hu, ?_⟩
    constructor
    · rintro ⟨r, hr⟩
      simp [buildToast] at hr
    · intro hne
      exact absurd rfl hne
  | cons u rest =>
    have hb : buildToast (u :: rest) =
        .ok { Message := "There are " ++ Nat.repr (u :: rest).length ++ " state pull requests"
              Title := "Stale Pull Requests"
              Subtitle := "Click to see newest stale PR"
              Link := u } := by simp [buildToast]
    simp only [hb]
    refine ⟨fun hu => by simp at hu, ?_, ?_⟩
    · intro v rest2 hv
      obtain ⟨rfl, rfl⟩ := List.cons.inj hv
      exact ⟨_, rfl, rfl⟩
    · constructor
      · intro _
        simp
      · intro _
        exact ⟨_, rfl⟩

/-- C6, on two runs: with the watch list `a/x;b/y` the link is the first stale
URL of `a/x`; with the watch list `A/x`, whose only query fails, no URL is
collected and `main` stops on the read of element 0. -/
theorem main_link_is_first_url_witness :
    (∃ toast s, main { reposToWatch := "a/x;b/y", githubAPIToken := "token" }
        (sourceClient orderSource) sampleClock = .ok (toast, ["a1", "a3", "b1"], s) ∧
      toast.Link = "a1") ∧
    main { reposToWatch := "A/x", githubAPIToken := "token" }
      (sourceClient sampleSource) sampleClock = .error .indexOutOfRange := by
  constructor
  · obtain ⟨toast, h1, h2⟩ :=
      (main_link_is_first_url { reposToWatch := "a/x;b/y", githubAPIToken := "token" }
        (sourceClient orderSource) sampleClock ["a1", "a3", "b1"]
        { ticks := 4, queried := [("a", "x"), ("b", "y")], errorLog := [] }
        (by decide) (by decide) (by rfl)).2.1 "a1" ["a3", "b1"] rfl
    exact ⟨toast, _, h1, h2⟩
  · exact ((main_link_is_first_url { reposToWatch := "A/x", githubAPIToken := "token" }
        (sourceClient sampleSource) sampleClock []
        { ticks := 0, queried := [("A", "x")], errorLog := [.fetchFailed "timeout"] }
        (by decide) (by decide) (by rfl)).1 rfl).2

/-- C7, as stated: on a list whose first pull request is stale and has no URL,
`getOldPullRequestsForRepo` does not exclude it and go on: it stops with a nil
pointer dereference and returns nothing. -/
theorem getOldPullRequestsForRepo_fails_without_url :
    getOldPullRequestsForRepo noURLClient sampleClock "o" "r" State.init =
      .error .nilDereference ∧
    ¬ ∃ urls s1, getOldPullRequestsForRepo noURLClient sampleClock "o" "r" State.init =
      .ok (urls, s1) := by
  have h : getOldPullRequestsForRepo noURLClient sampleClock "o" "r" State.init =
      .error .nilDereference := by rfl
  refine ⟨h, ?_⟩
  rintro ⟨urls, s1, h1⟩
  rw [h] at h1
  cases h1

/-- C7, amended: for a list of open pull requests, each with a creation time,
returned by a successful query, `getOldPullRequestsForRepo` ends normally when
every pull request created before the cutoff has a URL, and it then reports the
URLs of the stale pull requests in order, passing over a pull request without a
URL that is not stale; when some stale pull request has no URL the function
does not exclude it but stops with a nil pointer dereference. -/
theorem getOldPullRequestsForRepo_stale_without_url (client : GithubClient) (now : Clock)
    (owner name : String) (s : State) (prs : List PullRequest)
    (hq : client s.queried.length owner name = .ok prs)
    (hc : ∀ pr ∈ prs, pr.CreatedAt.isSome = true) :
    ((∀ p ∈ prs.enumFrom s.ticks,
        staleAt stalePullRequestTimeLimitDays now p = true → p.2.HTMLURL.isSome = true) →
      getOldPullRequestsForRepo client now owner name s =
        .ok (((prs.enumFrom s.ticks).filter
                (staleAt stalePullRequestTimeLimitDays now)).filterMap (fun p => p.2.HTMLURL),
            { ticks := s.ticks + prs.length, queried := s.queried ++ [(owner, name)],
              errorLog := s.errorLog })) ∧
    ((∃ p ∈ prs.enumFrom s.ticks,
        staleAt stalePullRequestTimeLimitDays now p = true ∧ p.2.HTMLURL = none) →
      getOldPullRequestsForRepo client now owner name s = .error .nilDereference) := by
  constructor
  · intro h
    simp only [getOldPullRequestsForRepo, hq]
    rw [oldPullRequestsLoop_created _ _ _ _ _ hc, if_pos h]
    simp
  · rintro ⟨p, hp, hst, hn⟩
    have h : ¬ ∀ p ∈ prs.enumFrom s.ticks,
        staleAt stalePullRequestTimeLimitDays now p = true → p.2.HTMLURL.isSome = true := by
      intro hall
      have := hall p hp hst
      rw [hn] at this
      simp at this
    simp only [getOldPullRequestsForRepo, hq]
    rw [oldPullRequestsLoop_created _ _ _ _ _ hc, if_neg h]

/-- C7, amended, on a list whose second pull request has no URL and is not
stale: the two stale URLs around it are reported. -/
theorem getOldPullRequestsForRepo_stale_without_url_witness :
    (∀ pr ∈ [({ CreatedAt := some 0, HTMLURL := some "u1" } : PullRequest),
        { CreatedAt := some (48 * Hour), HTMLURL := none },
        { CreatedAt := some 0, HTMLURL := some "u3" }], pr.CreatedAt.isSome = true) ∧
    getOldPullRequestsForRepo freshNoURLClient sampleClock "o" "r" State.init =
      .ok (["u1", "u3"], { ticks := 3, queried := [("o", "r")], errorLog := [] }) := by
  have hc : ∀ pr ∈ [({ CreatedAt := some 0, HTMLURL := some "u1" } : PullRequest),
      { CreatedAt := some (48 * Hour), HTMLURL := none },
      { CreatedAt := some 0, HTMLURL := some "u3" }], pr.CreatedAt.isSome = true := by decide
  refine ⟨hc, ?_⟩
  have h := (getOldPullRequestsForRepo_stale_without_url freshNoURLClient sampleClock "o" "r"
    State.init _ rfl hc).1 (by decide)
  rw [h]
  rfl

/-- C8, as stated: the constant is not 96 hours, and the cutoff is not the
reading minus 96 hours. -/
theorem stalePullRequestTimeLimitDays_ne_96_hours :
    stalePullRequestTimeLimitDays ≠ 96 * Hour ∧
    tooManyDaysAgo stalePullRequestTimeLimitDays 0 ≠ 0 - 96 * Hour := by
  decide

/-- C8, amended: the constant `time.Hour * 2 * 24` is 48 hours, that is 2 days
or 172800000000000 nanoseconds, a value within the range of a Go duration; the
cutoff computed from a clock reading is the reading minus 48 hours. -/
theorem stalePullRequestTimeLimitDays_eq_48_hours :
    stalePullRequestTimeLimitDays = 48 * Hour ∧
    stalePullRequestTimeLimitDays = 2 * (24 * Hour) ∧
    stalePullRequestTimeLimitDays = 172800000000000 ∧
    stalePullRequestTimeLimitDays < 2 ^ 63 ∧
    ∀ reading : Time,
      tooManyDaysAgo stalePullRequestTimeLimitDays reading = reading - 48 * Hour := by
  refine ⟨by decide, by decide, by decide, by decide, ?_⟩
  intro reading
  have e : stalePullRequestTimeLimitDays = 48 * Hour := by decide
  rw [e]
  simp only [tooManyDaysAgo, Time.Add]
  ring

/-- C9: for every instant, every list of pull requests and all limits
`t1 ≤ t2`, the pull requests selected with `t2` are a sub-sequence of those
selected with `t1`, so there are at most as many of them; and whatever the
clock readings, the URLs returned by the loop of `getOldPullRequestsForRepo`
with the limit `t2` are a sub-sequence of those returned with `t1`. -/
theorem stale_selection_antitone_in_threshold (now : Time) (t1 t2 : Duration)
    (prs : List PullRequestSummary) (h : t1 ≤ t2) :
    List.Sublist (selectStale now t2 prs) (selectStale now t1 prs) ∧
    (selectStale now t2 prs).length ≤ (selectStale now t1 prs).length ∧
    ∀ (clock : Clock) (k : Nat), ∃ urls1 urls2,
      oldPullRequestsLoop t1 clock (prs.map PullRequestSummary.toPullRequest) k [] =
        .ok (urls1, k + prs.length) ∧
      oldPullRequestsLoop t2 clock (prs.map PullRequestSummary.toPullRequest) k [] =
        .ok (urls2, k + prs.length) ∧
      List.Sublist urls2 urls1 ∧ urls2.length ≤ urls1.length := by
  have hs : List.Sublist (selectStale now t2 prs) (selectStale now t1 prs) := by
    apply List.monotone_filter_right
    intro p hp
    simp only [decide_eq_true_eq] at hp ⊢
    linarith
  refine ⟨hs, hs.length_le, ?_⟩
  intro clock k
  refine ⟨_, _, oldPullRequestsLoop_summaries t1 clock prs k [],
    oldPullRequestsLoop_summaries t2 clock prs k [], ?_, ?_⟩
  · simpa using staleURLsFrom_antitone t1 t2 h clock k prs
  · simpa using (staleURLsFrom_antitone t1 t2 h clock k prs).length_le

/-- C9, at the instant 100 hours after the epoch with the limits 48 and 96
hours: of two pull requests created 49 and 97 hours earlier, the limit of 48
hours selects both and the limit of 96 hours only the second. -/
theorem stale_selection_antitone_in_threshold_witness :
    (48 * Hour ≤ 96 * Hour) ∧
    selectStale (100 * Hour) (48 * Hour)
      [{ createdAt := 51 * Hour, url := "p1" }, { createdAt := 3 * Hour, url := "p2" }] =
      [{ createdAt := 51 * Hour, url := "p1" }, { createdAt := 3 * Hour, url := "p2" }] ∧
    selectStale (100 * Hour) (96 * Hour)
      [{ createdAt := 51 * Hour, url := "p1" }, { createdAt := 3 * Hour, url := "p2" }] =
      [{ createdAt := 3 * Hour, url := "p2" }] ∧
    List.Sublist
      (selectStale (100 * Hour) (96 * Hour)
        [{ createdAt := 51 * Hour, url := "p1" }, { createdAt := 3 * Hour, url := "p2" }])
      (selectStale (100 * Hour) (48 * Hour)
        [{ createdAt := 51 * Hour, url := "p1" }, { createdAt := 3 * Hour, url := "p2" }]) :=
  ⟨by decide, by decide, by decide,
    (stale_selection_antitone_in_threshold (100 * Hour) (48 * Hour) (96 * Hour)
      [{ createdAt := 51 * Hour, url := "p1" }, { createdAt := 3 * Hour, url := "p2" }]
      (by decide)).1⟩

/-- C10: `getOldPullRequestsForRepo` takes one clock reading for each pull
request of a successful query.  When these readings are non-decreasing, the
result contains, in order, every URL selected by the filter of the
specification at the first reading, and only URLs selected by that filter at
the last reading; when the readings are all equal to `t`, the result is the
list of URLs of `selectStale t stalePullRequestTimeLimitDays prs`. -/
theorem getOldPullRequestsForRepo_clock_per_pull_request
    (source : Nat → String → String → Except String (List PullRequestSummary)) (now : Clock)
    (owner name : String) (s : State) (prs : List PullRequestSummary)
    (hq : source s.queried.length owner name = .ok prs) :
    ∃ urls s1,
      getOldPullRequestsForRepo (sourceClient source) now owner name s = .ok (urls, s1) ∧
      s1.ticks = s.ticks + prs.length ∧
      urls = staleURLsFrom stalePullRequestTimeLimitDays now s.ticks prs ∧
      ((∀ i j, s.ticks ≤ i → i ≤ j → j < s.ticks + prs.length → now i ≤ now j) →
        List.Sublist
          ((selectStale (now s.ticks) stalePullRequestTimeLimitDays prs).map fun p => p.url)
          urls ∧
        List.Sublist urls
          ((selectStale (now (s.ticks + prs.length - 1)) stalePullRequestTimeLimitDays prs).map
            fun p => p.url)) ∧
      ∀ t, (∀ i, s.ticks ≤ i → i < s.ticks + prs.length → now i = t) →
        urls = (selectStale t stalePullRequestTimeLimitDays prs).map fun p => p.url := by
  refine ⟨_, _, getOldPullRequestsForRepo_source source now owner name s, ?_, ?_, ?_, ?_⟩
  · simp [hq, pullRequestsOf]
  · simp [hq, pullRequestsOf]
  · intro hmono
    rw [hq]
    simp only [pullRequestsOf]
    constructor
    · apply selectStale_urls_sublist_staleURLsFrom
      intro j hj1 hj2
      exact hmono s.ticks j (Nat.le_refl _) hj1 hj2
    · apply staleURLsFrom_sublist_selectStale_urls
      intro j hj1 hj2
      exact hmono j (s.ticks + prs.length - 1) hj1 (by omega) (by omega)
  · intro t ht
    rw [hq]
    simp only [pullRequestsOf]
    apply List.Sublist.antisymm
    · apply staleURLsFrom_sublist_selectStale_urls
      intro j hj1 hj2
      exact le_of_eq (ht j hj1 hj2)
    · apply selectStale_urls_sublist_staleURLsFrom
      intro j hj1 hj2
      exact le_of_eq (ht j hj1 hj2).symm

/-- C10, with a clock that advances by one hour at each reading from 48 hours
after the epoch, on pull requests created 30 minutes after the epoch, at the
epoch and 90 minutes after it: the filter at the first reading selects none,
the loop reports the second and the third, and the filter at the last reading
selects all three. -/
theorem getOldPullRequestsForRepo_clock_per_pull_request_witness :
    (∀ i j : Nat, 0 ≤ i → i ≤ j → j < 0 + 3 → tickingClock i ≤ tickingClock j) ∧
    getOldPullRequestsForRepo (sourceClient tickingSource) tickingClock "o" "r" State.init =
      .ok (["p2", "p3"], { ticks := 3, queried := [("o", "r")], errorLog := [] }) ∧
    (selectStale (tickingClock 0) stalePullRequestTimeLimitDays
      [{ createdAt := 30 * Minute, url := "p1" }, { createdAt := 0, url := "p2" },
       { createdAt := 90 * Minute, url := "p3" }]).map (fun p => p.url) = [] ∧
    (selectStale (tickingClock 2) stalePullRequestTimeLimitDays
      [{ createdAt := 30 * Minute, url := "p1" }, { createdAt := 0, url := "p2" },
       { createdAt := 90 * Minute, url := "p3" }]).map (fun p => p.url) = ["p1", "p2", "p3"] ∧
    List.Sublist ["p2", "p3"]
      ((selectStale (tickingClock 2) stalePullRequestTimeLimitDays
        [{ createdAt := 30 * Minute, url := "p1" }, { createdAt := 0, url := "p2" },
         { createdAt := 90 * Minute, url := "p3" }]).map (fun p => p.url)) := by
  have hmono : ∀ i j : Nat, 0 ≤ i → i ≤ j → j < 0 + 3 → tickingClock i ≤ tickingClock j := by
    intro i j _ hij _
    have hH : (0 : Int) ≤ Hour := by decide
    have hc : (i : Int) ≤ (j : Int) := by exact_mod_cast hij
    simp only [tickingClock]
    nlinarith
  have hrun : getOldPullRequestsForRepo (sourceClient tickingSource) tickingClock "o" "r"
      State.init =
      .ok (["p2", "p3"], { ticks := 3, queried := [("o", "r")], errorLog := [] }) := by rfl
  obtain ⟨urls, s1, h1, _, _, h4, _⟩ :=
    getOldPullRequestsForRepo_clock_per_pull_request tickingSource tickingClock "o" "r"
      State.init
      [{ createdAt := 30 * Minute, url := "p1" }, { createdAt := 0, url := "p2" },
       { createdAt := 90 * Minute, url := "p3" }] rfl
  rw [hrun] at h1
  injection h1 with h1
  injection h1 with hu _
  subst hu
  exact ⟨hmono, hrun, by decide, by decide, (h4 hmono).2⟩

end PrMonitor
